import Mathlib

/-!
Verification of the gwi workflow tool against its specification.

Each section shallowly embeds one unit of the Go source as executable Lean
definitions (pure functions stay pure; subprocess results become explicit
`Except`/`Option` parameters) and proves the specified properties about them.

Strings are modelled as `String` or `List Char` (Go strings are UTF-8 rune
sequences; every function modelled here treats them rune-wise, and whenever
the Go code indexes bytes the surrounding code has already reduced the string
to ASCII, where bytes and runes coincide).
-/

namespace GWI

/-! ### Slugify (internal/git, `Slugify`)

Go source:
```
s = strings.ToLower(s)
re := regexp.MustCompile(`[^a-z0-9]+`)
s = re.ReplaceAllString(s, "-")
s = strings.Trim(s, "-")
if len(s) > 50 { s = s[:50]; s = strings.TrimRight(s, "-") }
```
`ReplaceAllString` with the pattern `[^a-z0-9]+` replaces every maximal
nonempty run of characters outside `[a-z0-9]` with a single `-`;
`collapseAux` walks the string once carrying a flag that records whether the
scan is currently inside such a run, which is exactly that replacement.
`strings.ToLower` is modelled per character by `Char.toLower` (the ASCII
case mapping; the exotic non-ASCII code points where Go's Unicode table
differs are all outside `[a-z0-9]` before and after lowering, so they are
collapsed into `-` either way). After the replacement the string is pure
ASCII, so the byte-level `len`/`s[:50]` of the Go code coincide with the
character-level `length`/`take 50` used here. -/

/-- Membership in the character class `[a-z0-9]` of the replacement regex. -/
def isLowerAlnum (c : Char) : Bool :=
  (97 ≤ c.toNat && c.toNat ≤ 122) || (48 ≤ c.toNat && c.toNat ≤ 57)

/-- One left-to-right pass of `ReplaceAllString` for the pattern
`[^a-z0-9]+` and replacement `-`: the flag says whether the previous
character was inside a non-alphanumeric run (whose `-` was already emitted). -/
def collapseAux : Bool → List Char → List Char
  | _, [] => []
  | inRun, c :: rest =>
    if isLowerAlnum c then c :: collapseAux false rest
    else if inRun then collapseAux true rest
    else '-' :: collapseAux true rest

/-- Model of `regexp.MustCompile("[^a-z0-9]+").ReplaceAllString(s, "-")`. -/
def collapseNonAlnum (l : List Char) : List Char := collapseAux false l

/-- Model of `strings.TrimLeft(s, "-")` (the left half of `strings.Trim`). -/
def trimDashLeft (l : List Char) : List Char := l.dropWhile (fun c => c == '-')

/-- Model of `strings.TrimRight(s, "-")`. -/
def trimDashRight (l : List Char) : List Char :=
  (l.reverse.dropWhile (fun c => c == '-')).reverse

/-- Model of `git.Slugify`. -/
def Slugify (s : List Char) : List Char :=
  let lowered := s.map Char.toLower
  let collapsed := collapseNonAlnum lowered
  let trimmed := trimDashRight (trimDashLeft collapsed)
  if 50 < trimmed.length then trimDashRight (trimmed.take 50) else trimmed

/-- Adjacent-character relation: no two consecutive dashes. -/
def NoDD (a b : Char) : Prop := ¬(a = '-' ∧ b = '-')

lemma isLowerAlnum_ne_dash {c : Char} (h : isLowerAlnum c = true) : c ≠ '-' := by
  intro hc
  subst hc
  simp [isLowerAlnum] at h

lemma mem_collapseAux {c : Char} :
    ∀ (b : Bool) (l : List Char), c ∈ collapseAux b l →
      isLowerAlnum c = true ∨ c = '-' := by
  intro b l
  induction l generalizing b with
  | nil => intro h; simp [collapseAux] at h
  | cons a rest ih =>
    intro h
    by_cases ha : isLowerAlnum a
    · simp [collapseAux, ha] at h
      rcases h with h | h
      · exact Or.inl (h ▸ ha)
      · exact ih false h
    · cases b with
      | true =>
        simp [collapseAux, ha] at h
        exact ih true h
      | false =>
        simp [collapseAux, ha] at h
        rcases h with h | h
        · exact Or.inr h
        · exact ih true h

lemma head_collapseAux_true {a : Char} {r : List Char} :
    ∀ (l : List Char), collapseAux true l = a :: r → isLowerAlnum a = true := by
  intro l
  induction l with
  | nil => intro h; simp [collapseAux] at h
  | cons c rest ih =>
    intro h
    by_cases hc : isLowerAlnum c
    · simp [collapseAux, hc] at h
      exact h.1 ▸ hc
    · simp [collapseAux, hc] at h
      exact ih h

lemma chain_collapseAux : ∀ (b : Bool) (l : List Char),
    List.Chain' NoDD (collapseAux b l) := by
  intro b l
  induction l generalizing b with
  | nil => cases b <;> simp [collapseAux]
  | cons c rest ih =>
    by_cases hc : isLowerAlnum c
    · have he : collapseAux b (c :: rest) = c :: collapseAux false rest := by
        simp [collapseAux, hc]
      rw [he, List.chain'_cons']
      exact ⟨fun y _ hy => isLowerAlnum_ne_dash hc hy.1, ih false⟩
    · cases b with
      | true =>
        have he : collapseAux true (c :: rest) = collapseAux true rest := by
          simp [collapseAux, hc]
        rw [he]
        exact ih true
      | false =>
        have he : collapseAux false (c :: rest) = '-' :: collapseAux true rest := by
          simp [collapseAux, hc]
        rw [he, List.chain'_cons']
        refine ⟨?_, ih true⟩
        intro y hy hdd
        cases hcol : collapseAux true rest with
        | nil => rw [hcol] at hy; cases hy
        | cons a r =>
          rw [hcol] at hy
          have hya : y = a := by
            have := hy
            simp only [List.head?_cons, Option.mem_def, Option.some.injEq] at this
            exact this.symm
          exact isLowerAlnum_ne_dash (head_collapseAux_true rest hcol)
            (hya ▸ hdd.2)

lemma dropWhile_head_false {α : Type} {p : α → Bool} {a : α} {r : List α} :
    ∀ l : List α, l.dropWhile p = a :: r → p a = false := by
  intro l
  induction l with
  | nil => intro h; simp [List.dropWhile] at h
  | cons c rest ih =>
    intro h
    rw [List.dropWhile_cons] at h
    by_cases hc : p c
    · rw [if_pos hc] at h
      exact ih h
    · rw [if_neg hc] at h
      cases h
      simp only [Bool.not_eq_true] at hc
      exact hc

lemma trimDashRight_append_eq (l : List Char) :
    ∃ t, trimDashRight l ++ t = l := by
  obtain ⟨t, ht⟩ := List.dropWhile_suffix (l := l.reverse) (fun c => c == '-')
  refine ⟨t.reverse, ?_⟩
  have := congrArg List.reverse ht
  simpa [trimDashRight, List.reverse_append] using this

lemma trimDashRight_length_le (l : List Char) :
    (trimDashRight l).length ≤ l.length := by
  obtain ⟨t, ht⟩ := trimDashRight_append_eq l
  have := congrArg List.length ht
  simp at this
  omega

lemma trimDashRight_subset (l : List Char) : trimDashRight l ⊆ l := by
  obtain ⟨t, ht⟩ := trimDashRight_append_eq l
  intro c hc
  rw [← ht]
  exact List.mem_append_left _ hc

lemma trimDashRight_head {l : List Char} {a : Char} {r : List Char}
    (h : trimDashRight l = a :: r) : l.head? = some a := by
  obtain ⟨t, ht⟩ := trimDashRight_append_eq l
  rw [← ht, h]
  rfl

lemma trimDashRight_getLast_ne_dash {l : List Char} :
    (trimDashRight l).getLast? ≠ some '-' := by
  intro h
  rw [trimDashRight, List.getLast?_reverse] at h
  cases hd : l.reverse.dropWhile (fun c => c == '-') with
  | nil => rw [hd] at h; simp at h
  | cons a r =>
    rw [hd] at h
    simp at h
    have := dropWhile_head_false (p := fun c => c == '-') l.reverse hd
    rw [h] at this
    simp at this

lemma trimDashRight_chain {l : List Char} (h : List.Chain' NoDD l) :
    List.Chain' NoDD (trimDashRight l) := by
  have h1 : List.Chain' (flip NoDD) l.reverse := by
    rw [List.chain'_reverse]
    exact h.imp (fun a b hab => hab)
  have h2 : List.Chain' (flip NoDD) (l.reverse.dropWhile (fun c => c == '-')) :=
    h1.suffix (List.dropWhile_suffix _)
  rw [trimDashRight]
  rw [List.chain'_reverse]
  exact h2.imp (fun a b hab => hab)

lemma trimDashLeft_chain {l : List Char} (h : List.Chain' NoDD l) :
    List.Chain' NoDD (trimDashLeft l) :=
  h.suffix (List.dropWhile_suffix _)

lemma trimDashLeft_head_ne_dash {l : List Char} :
    (trimDashLeft l).head? ≠ some '-' := by
  intro h
  cases hd : trimDashLeft l with
  | nil => rw [hd] at h; simp at h
  | cons a r =>
    rw [hd] at h
    simp at h
    have := dropWhile_head_false (p := fun c => c == '-') l hd
    rw [h] at this
    simp at this

lemma head?_take {α : Type} {l : List α} {n : Nat} {a : α}
    (h : (l.take n).head? = some a) : l.head? = some a := by
  cases l with
  | nil => simp at h
  | cons c rest =>
    cases n with
    | zero => simp at h
    | succ m => simpa using h

lemma slug_props (s : List Char) :
    (∀ c ∈ Slugify s, isLowerAlnum c = true ∨ c = '-') ∧
    (Slugify s).head? ≠ some '-' ∧
    (Slugify s).getLast? ≠ some '-' ∧
    List.Chain' NoDD (Slugify s) ∧
    (Slugify s).length ≤ 50 := by
  have hS : Slugify s =
      if 50 < (trimDashRight (trimDashLeft (collapseNonAlnum
          (s.map Char.toLower)))).length then
        trimDashRight ((trimDashRight (trimDashLeft (collapseNonAlnum
          (s.map Char.toLower)))).take 50)
      else trimDashRight (trimDashLeft (collapseNonAlnum
          (s.map Char.toLower))) := rfl
  rw [hS]
  set lowered := s.map Char.toLower with hlow
  set trimmed := trimDashRight (trimDashLeft (collapseNonAlnum lowered))
    with htr
  have hmem : ∀ c ∈ trimmed, isLowerAlnum c = true ∨ c = '-' := by
    intro c hc
    have h1 : c ∈ trimDashLeft (collapseNonAlnum lowered) :=
      trimDashRight_subset _ hc
    have h2 : c ∈ collapseNonAlnum lowered := (List.dropWhile_sublist _).subset h1
    exact mem_collapseAux false lowered h2
  have hchain : List.Chain' NoDD trimmed :=
    trimDashRight_chain (trimDashLeft_chain (chain_collapseAux false lowered))
  have hhead : trimmed.head? ≠ some '-' := by
    intro h
    cases hd : trimmed with
    | nil => rw [hd] at h; simp at h
    | cons a r =>
      rw [hd] at h
      simp only [List.head?_cons, Option.some.injEq] at h
      subst h
      exact trimDashLeft_head_ne_dash (trimDashRight_head hd)
  have hlast : trimmed.getLast? ≠ some '-' := trimDashRight_getLast_ne_dash
  by_cases hlen : 50 < trimmed.length
  · rw [if_pos hlen]
    refine ⟨?_, ?_, ?_, ?_, ?_⟩
    · intro c hc
      exact hmem c ((List.take_subset _ _) (trimDashRight_subset _ hc))
    · intro h
      cases hd : trimDashRight (trimmed.take 50) with
      | nil => rw [hd] at h; simp at h
      | cons a r =>
        rw [hd] at h
        simp only [List.head?_cons, Option.some.injEq] at h
        subst h
        exact hhead (head?_take (trimDashRight_head hd))
    · exact trimDashRight_getLast_ne_dash
    · exact trimDashRight_chain (hchain.take 50)
    · calc (trimDashRight (trimmed.take 50)).length
          ≤ (trimmed.take 50).length := trimDashRight_length_le _
        _ ≤ 50 := by simp
  · rw [if_neg hlen]
    exact ⟨hmem, hhead, hlast, hchain, by omega⟩

/-- Claim C4: every slug is built only from lowercase letters, digits and
hyphens, carries no leading, trailing or doubled hyphen, and is at most 50
characters long. -/
theorem slugify_wellformed (s : List Char) :
    (∀ c ∈ Slugify s, isLowerAlnum c = true ∨ c = '-') ∧
    (Slugify s).head? ≠ some '-' ∧
    (Slugify s).getLast? ≠ some '-' ∧
    List.Chain' NoDD (Slugify s) ∧
    (Slugify s).length ≤ 50 :=
  slug_props s

lemma toLower_fixed {c : Char} (h : isLowerAlnum c = true ∨ c = '-') :
    Char.toLower c = c := by
  rcases h with h | h
  · simp only [isLowerAlnum, Bool.or_eq_true, Bool.and_eq_true,
      decide_eq_true_eq] at h
    have hn : ¬(c.toNat ≥ 65 ∧ c.toNat ≤ 90) := by omega
    simp [Char.toLower, hn]
  · subst h; decide

lemma collapseAux_fixed :
    ∀ l : List Char, (∀ c ∈ l, isLowerAlnum c = true ∨ c = '-') →
      List.Chain' NoDD l →
      collapseAux false l = l ∧
        ((∀ a, l.head? = some a → isLowerAlnum a = true) →
          collapseAux true l = l) := by
  intro l
  induction l with
  | nil => intro _ _; exact ⟨rfl, fun _ => rfl⟩
  | cons c rest ih =>
    intro hmem hchain
    have hmem' : ∀ x ∈ rest, isLowerAlnum x = true ∨ x = '-' :=
      fun x hx => hmem x (List.mem_cons_of_mem c hx)
    have hchain' : List.Chain' NoDD rest := (List.chain'_cons'.mp hchain).2
    obtain ⟨ihf, iht⟩ := ih hmem' hchain'
    rcases hmem c (List.mem_cons_self c rest) with hc | hc
    · constructor
      · simp [collapseAux, hc, ihf]
      · intro _
        simp [collapseAux, hc, ihf]
    · subst hc
      have hdash : isLowerAlnum '-' = false := by decide
      constructor
      · simp only [collapseAux, hdash, Bool.false_eq_true, if_false,
          List.cons.injEq, true_and]
        apply iht
        intro a ha
        have hR := (List.chain'_cons'.mp hchain).1 a ha
        rcases hmem' a (List.mem_of_mem_head? ha) with h | h
        · exact h
        · exact absurd ⟨rfl, h⟩ hR
      · intro hhead
        exact absurd (hhead '-' rfl) (by decide)

lemma trimDashLeft_fixed {l : List Char} (h : l.head? ≠ some '-') :
    trimDashLeft l = l := by
  cases l with
  | nil => rfl
  | cons a r =>
    have ha : (a == '-') = false := by
      simp only [List.head?_cons, ne_eq, Option.some.injEq] at h
      simp [h]
    simp [trimDashLeft, List.dropWhile_cons, ha]

lemma trimDashRight_fixed {l : List Char} (h : l.getLast? ≠ some '-') :
    trimDashRight l = l := by
  rw [trimDashRight]
  have hrev : l.reverse.head? ≠ some '-' := by
    rw [List.head?_reverse]; exact h
  have hd : List.dropWhile (fun c => c == '-') l.reverse = l.reverse := by
    cases hl : l.reverse with
    | nil => simp
    | cons a r =>
      have ha : (a == '-') = false := by
        rw [hl] at hrev
        simp only [List.head?_cons, ne_eq, Option.some.injEq] at hrev
        simp [hrev]
      rw [List.dropWhile_cons]
      simp [ha]
  rw [hd, List.reverse_reverse]

lemma map_id_of_mem {α : Type} {f : α → α} :
    ∀ {l : List α}, (∀ c ∈ l, f c = c) → l.map f = l := by
  intro l h
  induction l with
  | nil => rfl
  | cons a r ih =>
    simp only [List.map_cons, h a (List.mem_cons_self a r),
      ih (fun c hc => h c (List.mem_cons_of_mem a hc))]

/-- Claim C10: `Slugify` is idempotent, so slugs derived from already
slugified names are stable. -/
theorem slugify_idempotent (s : List Char) :
    Slugify (Slugify s) = Slugify s := by
  obtain ⟨hmem, hhead, hlast, hchain, hlen⟩ := slug_props s
  set w := Slugify s with hw
  have hmap : w.map Char.toLower = w :=
    map_id_of_mem (fun c hc => toLower_fixed (hmem c hc))
  have hcol : collapseNonAlnum w = w := (collapseAux_fixed w hmem hchain).1
  have htl : trimDashLeft w = w := trimDashLeft_fixed hhead
  have hS : Slugify w =
      if 50 < (trimDashRight (trimDashLeft (collapseNonAlnum
          (w.map Char.toLower)))).length then
        trimDashRight ((trimDashRight (trimDashLeft (collapseNonAlnum
          (w.map Char.toLower)))).take 50)
      else trimDashRight (trimDashLeft (collapseNonAlnum
          (w.map Char.toLower))) := rfl
  rw [hS, hmap, hcol, htl, trimDashRight_fixed hlast,
    if_neg (by omega : ¬ 50 < w.length)]

/-! ### strconv.Atoi (standard library call used by the embedded code)

Go's `strconv.Atoi` accepts an optional sign followed by one or more decimal
digits and rejects everything else. It is modelled over unbounded integers:
the only divergence is input beyond the 64-bit range, which Go rejects with a
range error; every caller modelled here treats such input the same way it
treats any other huge number (out of range), so the divergence is
unobservable in the proved statements. -/

/-- Digit-string part of `strconv.Atoi`: all characters must be digits. -/
def goAtoiDigits : List Char → Option Nat
  | [] => none
  | l =>
    if l.all (fun c => c.isDigit) then
      some (l.foldl (fun a c => a * 10 + (c.toNat - 48)) 0)
    else none

/-- Model of `strconv.Atoi`. -/
def goAtoi (s : String) : Option Int :=
  match s.data with
  | '+' :: rest => (goAtoiDigits rest).map (fun n => (n : Int))
  | '-' :: rest => (goAtoiDigits rest).map (fun n => -(n : Int))
  | l => (goAtoiDigits l).map (fun n => (n : Int))

/-- Model of `strings.TrimSpace` (whitespace stripped from both ends). -/
def goTrimSpace (s : String) : String :=
  String.mk
    (((s.data.dropWhile Char.isWhitespace).reverse.dropWhile
      Char.isWhitespace).reverse)

/-- Model of `strings.Fields`: split on whitespace, drop empty pieces. -/
def goFields (s : String) : List String :=
  (s.split Char.isWhitespace).filter (fun t => t ≠ "")

/-! ### Read queries of the branch/worktree manager (internal/git)

Each query shells out to git; the subprocess result is the explicit
`Except String String` argument (error, or captured stdout). -/

/-- Model of `git.HasUncommittedChanges`: `git status --porcelain`, `false`
on error, otherwise whether the trimmed output is nonempty. -/
def HasUncommittedChanges (cmdOut : Except String String) : Bool :=
  match cmdOut with
  | Except.error _ => false
  | Except.ok out => decide (0 < (goTrimSpace out).length)

/-- Model of `git.GetAheadBehind` (`git rev-list --left-right --count`):
returns `(ahead, behind, err)`.  On a subprocess error the counts are zero
and the error is returned; otherwise the two whitespace-separated fields are
parsed (`behind` first), ignoring per-field parse failures. -/
def GetAheadBehind (cmdOut : Except String String) : Int × Int × Option String :=
  match cmdOut with
  | Except.error e => (0, 0, some e)
  | Except.ok out =>
    let parts := goFields (goTrimSpace out)
    if parts.length ≠ 2 then (0, 0, none)
    else ((goAtoi (parts.getD 1 "")).getD 0, (goAtoi (parts.getD 0 "")).getD 0,
      none)

/-- Model of `git.GetUncommittedCount` (`git status --short`): 0 on error,
otherwise the number of lines of trimmed output. -/
def GetUncommittedCount (cmdOut : Except String String) : Nat :=
  match cmdOut with
  | Except.error _ => 0
  | Except.ok out =>
    let lines := (goTrimSpace out).splitOn "\n"
    if lines.length = 1 ∧ lines.getD 0 "" = "" then 0 else lines.length

/-- Claim C6 counterexample: `GetAheadBehind` does not swallow the
subprocess error — it returns zero counts together with the error, so the
claim that all three read queries return plain zero values instead of
propagating the error fails on `GetAheadBehind`. -/
theorem getAheadBehind_error_not_swallowed :
    GetAheadBehind (Except.error "boom") ≠ (0, 0, (none : Option String)) := by
  decide

/-- Claim C6 amended: `HasUncommittedChanges` and `GetUncommittedCount`
return the zero value (`false` / `0`) on any underlying error without
propagating it; `GetAheadBehind` returns zero counts on error but propagates
the underlying error to the caller in its error component. -/
theorem read_queries_zero_on_error (e : String) :
    HasUncommittedChanges (Except.error e) = false ∧
    GetUncommittedCount (Except.error e) = 0 ∧
    GetAheadBehind (Except.error e) = (0, 0, some e) :=
  ⟨rfl, rfl, rfl⟩

/-! ### Worktree lookup by issue number (internal/git, `FindWorktreeByIssue`)

`filepath.Glob(base/<n>-*)` returns the names in `base` matching the
pattern (a name matches `<n>-*` exactly when it starts with `"<n>-"`, since
directory entries contain no separator), each prefixed with `base/`; a
nonexistent base directory yields no matches and no error, and the pattern
built from `strconv.Itoa` can never be malformed, so the error branch of the
Go code is unreachable and the filesystem is modelled as
`Option (List String)` (`none` = base missing, `some` = entry names). -/

/-- A directory entry name matches the glob pattern `<issueNumber>-*`. -/
def globNumDash (issueNumber : Nat) (name : String) : Bool :=
  List.isPrefixOf (toString issueNumber ++ "-").data name.data

/-- Model of `git.FindWorktreeByIssue`. -/
def FindWorktreeByIssue (baseEntries : Option (List String)) (base : String)
    (issueNumber : Nat) : String :=
  let found :=
    match baseEntries with
    | none => []
    | some entries =>
      (entries.filter (fun e => globNumDash issueNumber e)).map
        (fun e => base ++ "/" ++ e)
  match found with
  | [] => ""
  | m :: _ => m

/-- Claim C5: `FindWorktreeByIssue` returns the empty string when the base
directory does not exist, and when exactly one entry matches the glob
`<n>-*` it returns that entry's path, whose basename starts with `"<n>-"`. -/
theorem findWorktreeByIssue_spec (base : String) (n : Nat) :
    FindWorktreeByIssue none base n = "" ∧
    ∀ (entries : List String) (e : String),
      entries.filter (fun x => globNumDash n x) = [e] →
      FindWorktreeByIssue (some entries) base n = base ++ "/" ++ e ∧
        globNumDash n e = true := by
  refine ⟨rfl, ?_⟩
  intro entries e hf
  constructor
  · simp [FindWorktreeByIssue, hf]
  · have he : e ∈ entries.filter (fun x => globNumDash n x) := by
      rw [hf]
      exact List.mem_singleton.mpr rfl
    exact (List.mem_filter.mp he).2

/-- Witness for claim C5 at a concrete directory listing. -/
theorem findWorktreeByIssue_spec_witness :
    FindWorktreeByIssue none "/home/u/worktrees" 42 = "" ∧
    FindWorktreeByIssue (some ["41-other", "42-fix-bug", "437-x"]) "/base" 42 =
      "/base" ++ "/" ++ "42-fix-bug" := by
  refine ⟨(findWorktreeByIssue_spec "/home/u/worktrees" 42).1, ?_⟩
  exact ((findWorktreeByIssue_spec "/base" 42).2
    ["41-other", "42-fix-bug", "437-x"] "42-fix-bug" (by decide)).1

/-! ### Hook resolution and execution (internal/hooks)

The filesystem is the oracle `fs : String → Option Nat` giving each path's
permission bits (`none` = `os.Stat` fails); `git.GetMainWorktreePath` is the
`Except` argument, the nil-ness of the repo info pointer is the `Option`,
and running the resolved script is the oracle `run : String → Option String`
(`none` = exit success). `filepath.Join` is modelled as `/`-interposition. -/

structure RepoInfo where
  org : String
  repo : String

/-- Model of `hooks.isExecutable`: the file exists and
`info.Mode()&0111 != 0`. -/
def isExecutable (fs : String → Option Nat) (path : String) : Bool :=
  match fs path with
  | none => false
  | some mode => decide (mode &&& 0o111 ≠ 0)

/-- Model of `hooks.FindHook`: worktree-local hook, then main-worktree hook
(when the main worktree was resolved and is nonempty), then the global hook
(when repo info is present); empty string when none is executable. -/
def FindHook (fs : String → Option Nat) (hookName worktreePath : String)
    (mainWorktree : Except String String) (hookDir : String)
    (repoInfo : Option RepoInfo) : String :=
  let worktreeHook := worktreePath ++ "/.gwi/" ++ hookName
  if isExecutable fs worktreeHook then worktreeHook
  else
    let globalStep :=
      match repoInfo with
      | some ri =>
        let globalHook :=
          hookDir ++ "/" ++ ri.org ++ "/" ++ ri.repo ++ "/" ++ hookName
        if isExecutable fs globalHook then globalHook else ""
      | none => ""
    match mainWorktree with
    | Except.ok mainPath =>
      if mainPath ≠ "" then
        let mainHook := mainPath ++ "/.gwi/" ++ hookName
        if isExecutable fs mainHook then mainHook else globalStep
      else globalStep
    | Except.error _ => globalStep

/-- Model of `hooks.RunHook`: resolve, no-op `(false, nil)` when nothing
resolved, otherwise `(true, exit error?)`. -/
def RunHook (fs : String → Option Nat) (hookName worktreePath : String)
    (mainWorktree : Except String String) (hookDir : String)
    (repoInfo : Option RepoInfo) (run : String → Option String) :
    Bool × Option String :=
  let hookScript := FindHook fs hookName worktreePath mainWorktree hookDir repoInfo
  if hookScript = "" then (false, none)
  else
    match run hookScript with
    | some e => (true, some e)
    | none => (true, none)

/-- First entry of a candidate list that is executable, `""` if none:
the search order stated by the specification. -/
def firstExecutable (fs : String → Option Nat) : List String → String
  | [] => ""
  | p :: rest => if isExecutable fs p then p else firstExecutable fs rest

/-- Claim C7: hook resolution returns the first executable file in the order
worktree-local, main-worktree, global-per-repo, and running an unresolved
hook is a no-op returning no error. -/
theorem findHook_first_executable (fs : String → Option Nat)
    (hookName worktreePath mainPath hookDir : String) (ri : RepoInfo)
    (run : String → Option String) (hmp : mainPath ≠ "") :
    FindHook fs hookName worktreePath (Except.ok mainPath) hookDir (some ri) =
      firstExecutable fs
        [worktreePath ++ "/.gwi/" ++ hookName,
         mainPath ++ "/.gwi/" ++ hookName,
         hookDir ++ "/" ++ ri.org ++ "/" ++ ri.repo ++ "/" ++ hookName] ∧
    (FindHook fs hookName worktreePath (Except.ok mainPath) hookDir
        (some ri) = "" →
      RunHook fs hookName worktreePath (Except.ok mainPath) hookDir
        (some ri) run = (false, none)) := by
  constructor
  · simp only [FindHook, firstExecutable, hmp, ne_eq, not_false_iff, if_true]
  · intro h
    simp [RunHook, h]

/-- Witness for claim C7: a filesystem where only the global hook is
executable resolves to the global hook, and an empty filesystem resolves to
nothing and running is a silent no-op. -/
theorem findHook_first_executable_witness :
    FindHook (fun p => if p = "/hooks/acme/widget/post-create" then some 0o755
        else none) "post-create" "/wt" (Except.ok "/main") "/hooks"
        (some ⟨"acme", "widget"⟩) =
      firstExecutable (fun p => if p = "/hooks/acme/widget/post-create" then
          some 0o755 else none)
        ["/wt" ++ "/.gwi/" ++ "post-create",
         "/main" ++ "/.gwi/" ++ "post-create",
         "/hooks" ++ "/" ++ "acme" ++ "/" ++ "widget" ++ "/" ++ "post-create"] ∧
    RunHook (fun _ => none) "post-create" "/wt" (Except.ok "/main") "/hooks"
        (some ⟨"acme", "widget"⟩) (fun _ => none) = (false, none) := by
  constructor
  · exact (findHook_first_executable
      (fun p => if p = "/hooks/acme/widget/post-create" then some 0o755 else none)
      "post-create" "/wt" "/main" "/hooks" ⟨"acme", "widget"⟩ (fun _ => none)
      (by decide)).1
  · exact (findHook_first_executable (fun _ => none) "post-create" "/wt"
      "/main" "/hooks" ⟨"acme", "widget"⟩ (fun _ => none) (by decide)).2
      (by decide)

/-! ### Merge classification (cmd, `runMerge`, PR-based variant)

The segment of `runMerge` between fetching the PR status and calling
`github.MergePR`:
```
if pr.Mergeable == "CONFLICTING" { config.Die(...) }
if pr.MergeStateStatus == "BLOCKED" { warn; if !confirmPrompt(...) { Die } }
failingChecks := github.GetFailingChecks(pr)
if len(failingChecks) > 0 { warn; if !confirmPrompt(...) { Die } }
... github.MergePR(prNumber, cfg.MergeStrategy) ...
```
The two interactive confirmations are the boolean inputs; the trace records
whether the merge call was reached, how many confirmations were asked, and
whether the command died first. -/

structure CheckStatus where
  name : String
  conclusion : String

structure PullRequest where
  number : Nat
  state : String
  mergeable : String
  mergeStateStatus : String
  statusCheckRollup : List CheckStatus

/-- Model of `github.GetFailingChecks`: names of checks whose conclusion is
`FAILURE`. -/
def GetFailingChecks (pr : PullRequest) : List String :=
  (pr.statusCheckRollup.filter (fun c => c.conclusion == "FAILURE")).map
    (fun c => c.name)

structure MergeTrace where
  mergeCalled : Bool
  promptCount : Nat
  aborted : Bool
deriving DecidableEq, Repr

/-- The failing-checks gate and merge call of `runMerge`, entered with `n`
confirmations already asked. -/
def runMergeChecksTail (pr : PullRequest) (confirmFailing : Bool) (n : Nat) :
    MergeTrace :=
  if GetFailingChecks pr ≠ [] then
    if confirmFailing then ⟨true, n + 1, false⟩ else ⟨false, n + 1, true⟩
  else ⟨true, n, false⟩

/-- Model of the mergeability classification of `runMerge`. -/
def runMergeClassify (pr : PullRequest) (confirmBlocked confirmFailing : Bool) :
    MergeTrace :=
  if pr.mergeable = "CONFLICTING" then ⟨false, 0, true⟩
  else if pr.mergeStateStatus = "BLOCKED" then
    if confirmBlocked then runMergeChecksTail pr confirmFailing 1
    else ⟨false, 1, true⟩
  else runMergeChecksTail pr confirmFailing 0

/-- Claim C2: a PR report with `mergeable = CONFLICTING` always aborts
before any confirmation or merge call; a report without conflicts, not
BLOCKED and with no failing checks reaches the merge call without a single
confirmation prompt. -/
theorem runMerge_classification (pr : PullRequest) (cb cf : Bool) :
    (pr.mergeable = "CONFLICTING" →
      runMergeClassify pr cb cf = ⟨false, 0, true⟩) ∧
    (pr.mergeable ≠ "CONFLICTING" → pr.mergeStateStatus ≠ "BLOCKED" →
      GetFailingChecks pr = [] →
      runMergeClassify pr cb cf = ⟨true, 0, false⟩) := by
  constructor
  · intro h
    simp [runMergeClassify, h]
  · intro h1 h2 h3
    simp [runMergeClassify, runMergeChecksTail, h1, h2, h3]

/-- Witness for claim C2 at two concrete PR reports. -/
theorem runMerge_classification_witness :
    runMergeClassify ⟨1, "OPEN", "CONFLICTING", "DIRTY", []⟩ true true =
      ⟨false, 0, true⟩ ∧
    runMergeClassify ⟨2, "OPEN", "MERGEABLE", "CLEAN", [⟨"ci", "SUCCESS"⟩]⟩
        false false = ⟨true, 0, false⟩ := by
  constructor
  · exact (runMerge_classification ⟨1, "OPEN", "CONFLICTING", "DIRTY", []⟩
      true true).1 rfl
  · exact (runMerge_classification
      ⟨2, "OPEN", "MERGEABLE", "CLEAN", [⟨"ci", "SUCCESS"⟩]⟩ false false).2
      (by decide) (by decide) (by decide)

/-! ### Board status update (internal/github, `UpdateIssueStatus`)

The remote calls are oracles: `scopeCheck` is `CheckProjectScopes`,
`itemsResult` is `GetProjectItemsForIssue`, `getField` is
`GetProjectField` (per item), and `updateItem` is
`UpdateProjectItemStatus` (`none` = success). `GetFieldOptionID` is pure Go
code and is translated directly. -/

structure ProjectItem where
  id : String
  projectId : String
deriving DecidableEq, Repr

structure FieldOption where
  id : String
  name : String
deriving DecidableEq, Repr

structure ProjectField where
  id : String
  name : String
  options : List FieldOption
deriving DecidableEq, Repr

/-- Model of `strings.EqualFold` (ASCII case folding). -/
def strEqFold (a b : String) : Bool :=
  a.data.map Char.toLower == b.data.map Char.toLower

/-- Model of `github.GetFieldOptionID`: first option whose name matches
case-insensitively, else an error. -/
def GetFieldOptionID (field : ProjectField) (optionName : String) :
    Except String String :=
  match field.options.find? (fun o => strEqFold o.name optionName) with
  | some o => Except.ok o.id
  | none => Except.error ("option not found: " ++ optionName)

/-- Outcome of one iteration of the per-item loop: `none` when the item was
updated, `some e` when the iteration `continue`d with error `e`. -/
def itemOutcome (getField : ProjectItem → Except String ProjectField)
    (updateItem : ProjectItem → Option String) (statusValue : String)
    (item : ProjectItem) : Option String :=
  match getField item with
  | Except.error e => some e
  | Except.ok field =>
    match GetFieldOptionID field statusValue with
    | Except.error e => some e
    | Except.ok _ => updateItem item

/-- Whether an iteration reaches the `gh project item-edit` write. -/
def reachesWrite (getField : ProjectItem → Except String ProjectField)
    (statusValue : String) (item : ProjectItem) : Bool :=
  match getField item with
  | Except.error _ => false
  | Except.ok field =>
    match GetFieldOptionID field statusValue with
    | Except.error _ => false
    | Except.ok _ => true

/-- The `for _, item := range items` loop of `UpdateIssueStatus`, threading
`(successCount, lastErr, writesAttempted)`. -/
def updLoop (getField : ProjectItem → Except String ProjectField)
    (updateItem : ProjectItem → Option String) (statusValue : String) :
    List ProjectItem → Nat × Option String × Nat → Nat × Option String × Nat
  | [], acc => acc
  | item :: rest, (sc, le, w) =>
    match getField item with
    | Except.error e => updLoop getField updateItem statusValue rest (sc, some e, w)
    | Except.ok field =>
      match GetFieldOptionID field statusValue with
      | Except.error e =>
        updLoop getField updateItem statusValue rest (sc, some e, w)
      | Except.ok _ =>
        match updateItem item with
        | some e => updLoop getField updateItem statusValue rest (sc, some e, w + 1)
        | none => updLoop getField updateItem statusValue rest (sc + 1, le, w + 1)

/-- Model of `github.UpdateIssueStatus`; the second component counts the
status writes attempted. -/
def UpdateIssueStatus (ghFound : Bool) (checkScopes : Bool)
    (scopeCheck : Except String Unit)
    (itemsResult : Except String (List ProjectItem))
    (getField : ProjectItem → Except String ProjectField)
    (updateItem : ProjectItem → Option String) (statusValue : String) :
    Except String Unit × Nat :=
  if !ghFound then (Except.error "gh CLI not found in PATH", 0)
  else
    match (if checkScopes then scopeCheck else Except.ok ()) with
    | Except.error e => (Except.error e, 0)
    | Except.ok _ =>
      match itemsResult with
      | Except.error e => (Except.error e, 0)
      | Except.ok items =>
        if items.length = 0 then (Except.ok (), 0)
        else
          match updLoop getField updateItem statusValue items (0, none, 0) with
          | (sc, le, w) =>
            if sc = 0 then
              match le with
              | some e => (Except.error e, w)
              | none => (Except.ok (), w)
            else (Except.ok (), w)

lemma getLast?_cons_or {α : Type} (a : α) (l : List α) :
    (a :: l).getLast? = l.getLast?.or (some a) := by
  cases l with
  | nil => rfl
  | cons b r =>
    rw [List.getLast?_cons_cons]
    cases hg : (b :: r).getLast? with
    | none =>
      have : b :: r ≠ [] := by simp
      rw [← List.getLast?_isSome] at this
      rw [hg] at this
      cases this
    | some x => rfl

lemma option_or_assoc {α : Type} (a b c : Option α) :
    (a.or b).or c = a.or (b.or c) := by
  cases a <;> rfl

lemma option_some_or {α : Type} (a : α) (b : Option α) :
    (some a).or b = some a := rfl

lemma updLoop_characterization
    (getField : ProjectItem → Except String ProjectField)
    (updateItem : ProjectItem → Option String) (statusValue : String) :
    ∀ (items : List ProjectItem) (sc : Nat) (le : Option String) (w : Nat),
      updLoop getField updateItem statusValue items (sc, le, w) =
        (sc + (items.filter
            (fun i => (itemOutcome getField updateItem statusValue i).isNone)).length,
          ((items.filterMap (itemOutcome getField updateItem statusValue)).getLast?).or le,
          w + (items.filter (fun i => reachesWrite getField statusValue i)).length) := by
  intro items
  induction items with
  | nil => intro sc le w; simp [updLoop]
  | cons item rest ih =>
    intro sc le w
    have houtc : itemOutcome getField updateItem statusValue item =
        itemOutcome getField updateItem statusValue item := rfl
    cases hf : getField item with
    | error e =>
      have ho : itemOutcome getField updateItem statusValue item = some e := by
        simp [itemOutcome, hf]
      have hw : reachesWrite getField statusValue item = false := by
        simp [reachesWrite, hf]
      simp only [updLoop, hf, ih, List.filter_cons, List.filterMap_cons, ho, hw,
        Bool.false_eq_true, if_false, Option.isNone_some, getLast?_cons_or,
        option_or_assoc, option_some_or]
    | ok field =>
      cases hb : GetFieldOptionID field statusValue with
      | error e =>
        have ho : itemOutcome getField updateItem statusValue item = some e := by
          simp [itemOutcome, hf, hb]
        have hw : reachesWrite getField statusValue item = false := by
          simp [reachesWrite, hf, hb]
        simp only [updLoop, hf, hb, ih, List.filter_cons, List.filterMap_cons, ho,
          hw, Bool.false_eq_true, if_false, Option.isNone_some, getLast?_cons_or,
          option_or_assoc, option_some_or]
      | ok optId =>
        cases hu : updateItem item with
        | some e =>
          have ho : itemOutcome getField updateItem statusValue item = some e := by
            simp [itemOutcome, hf, hb, hu]
          have hw : reachesWrite getField statusValue item = true := by
            simp [reachesWrite, hf, hb]
          simp only [updLoop, hf, hb, hu, ih, List.filter_cons, List.filterMap_cons,
            ho, hw, if_true, Option.isNone_some, Bool.false_eq_true, if_false,
            getLast?_cons_or, option_or_assoc, option_some_or, List.length_cons]
          simp only [Prod.mk.injEq]
          refine ⟨?_, ?_, ?_⟩ <;> first
          | trivial
          | omega
        | none =>
          have ho : itemOutcome getField updateItem statusValue item = none := by
            simp [itemOutcome, hf, hb, hu]
          have hw : reachesWrite getField statusValue item = true := by
            simp [reachesWrite, hf, hb]
          simp only [updLoop, hf, hb, hu, ih, List.filter_cons, List.filterMap_cons,
            ho, hw, if_true, Option.isNone_none, List.length_cons]
          simp only [Prod.mk.injEq]
          refine ⟨?_, ?_, ?_⟩ <;> first
          | trivial
          | omega

/-- Claim C3: with the CLI present, the scope gate passed and the item fetch
successful, `UpdateIssueStatus` is a no-op success on zero linked items
(attempting no status write); otherwise the loop visits every item (the
write count and the success count range over the whole list, regardless of
earlier per-item failures), succeeds as soon as one item was updated, and
returns the last per-item error exactly when no item was updated. -/
theorem updateIssueStatus_spec (checkScopes : Bool)
    (scopeCheck : Except String Unit)
    (getField : ProjectItem → Except String ProjectField)
    (updateItem : ProjectItem → Option String) (statusValue : String)
    (items : List ProjectItem)
    (hscope : checkScopes = false ∨ scopeCheck = Except.ok ()) :
    (items = [] →
      UpdateIssueStatus true checkScopes scopeCheck (Except.ok items)
        getField updateItem statusValue = (Except.ok (), 0)) ∧
    (items ≠ [] →
      (UpdateIssueStatus true checkScopes scopeCheck (Except.ok items)
          getField updateItem statusValue).2 =
        (items.filter (fun i => reachesWrite getField statusValue i)).length) ∧
    ((∃ i ∈ items, itemOutcome getField updateItem statusValue i = none) →
      (UpdateIssueStatus true checkScopes scopeCheck (Except.ok items)
          getField updateItem statusValue).1 = Except.ok ()) ∧
    (items ≠ [] →
      (∀ i ∈ items, (itemOutcome getField updateItem statusValue i).isSome) →
      ∃ e, (items.filterMap (itemOutcome getField updateItem statusValue)).getLast?
          = some e ∧
        (UpdateIssueStatus true checkScopes scopeCheck (Except.ok items)
            getField updateItem statusValue).1 = Except.error e) := by
  have hpass : (if checkScopes then scopeCheck else Except.ok ()) =
      Except.ok () := by
    rcases hscope with h | h
    · rw [h]; rfl
    · rw [h]; simp
  have hU : UpdateIssueStatus true checkScopes scopeCheck (Except.ok items)
      getField updateItem statusValue =
      (if items.length = 0 then (Except.ok (), 0)
       else
        match updLoop getField updateItem statusValue items (0, none, 0) with
        | (sc, le, w) =>
          if sc = 0 then
            match le with
            | some e => (Except.error e, w)
            | none => (Except.ok (), w)
          else (Except.ok (), w)) := by
    simp only [UpdateIssueStatus, Bool.not_true, Bool.false_eq_true, if_false,
      hpass]
  rw [updLoop_characterization] at hU
  refine ⟨?_, ?_, ?_, ?_⟩
  · intro h
    subst h
    simpa using hU
  · intro hne
    have hlen : items.length ≠ 0 := by
      intro h
      exact hne (List.length_eq_zero.mp h)
    rw [hU, if_neg hlen]
    cases hsc : (items.filter
        (fun i => (itemOutcome getField updateItem statusValue i).isNone)).length
    · cases hle : ((items.filterMap
          (itemOutcome getField updateItem statusValue)).getLast?).or none <;>
        simp [hsc, hle]
    · simp [hsc]
  · intro ⟨i, hi, hout⟩
    have hlen : items.length ≠ 0 := by
      intro h
      rw [List.length_eq_zero.mp h] at hi
      cases hi
    have hmemf : i ∈ items.filter
        (fun x => (itemOutcome getField updateItem statusValue x).isNone) :=
      List.mem_filter.mpr ⟨hi, by simp [hout]⟩
    have hpos : 0 < (items.filter
        (fun x => (itemOutcome getField updateItem statusValue x).isNone)).length :=
      List.length_pos.mpr (List.ne_nil_of_mem hmemf)
    rw [hU, if_neg hlen]
    have hsc : ¬ (0 + (items.filter
        (fun x => (itemOutcome getField updateItem statusValue x).isNone)).length
        = 0) := by omega
    simp only [hsc, if_false, Nat.zero_add] at *
    rw [if_neg (by omega)]
  · intro hne hall
    have hlen : items.length ≠ 0 := by
      intro h
      exact hne (List.length_eq_zero.mp h)
    have hfilter : items.filter
        (fun x => (itemOutcome getField updateItem statusValue x).isNone) = [] := by
      rw [List.filter_eq_nil_iff]
      intro a ha
      have := hall a ha
      simp only [Option.isSome_iff_exists] at this
      obtain ⟨e, he⟩ := this
      simp [he]
    have hfm : (items.filterMap
        (itemOutcome getField updateItem statusValue)) ≠ [] := by
      cases hitems : items with
      | nil => exact absurd hitems hne
      | cons a rest =>
        have := hall a (by rw [hitems]; exact List.mem_cons_self a rest)
        simp only [Option.isSome_iff_exists] at this
        obtain ⟨e, he⟩ := this
        rw [List.filterMap_cons, he]
        simp
    have hsome : ((items.filterMap
        (itemOutcome getField updateItem statusValue)).getLast?).isSome := by
      rw [List.getLast?_isSome]
      exact hfm
    obtain ⟨e, he⟩ := Option.isSome_iff_exists.mp hsome
    refine ⟨e, he, ?_⟩
    rw [hU, if_neg hlen]
    simp [hfilter, he]

/-- Witness for claim C3: a call with zero linked items succeeds without
writing, and a call with one updatable item succeeds. -/
theorem updateIssueStatus_spec_witness :
    UpdateIssueStatus true false (Except.ok ()) (Except.ok [])
      (fun _ => Except.error "no field") (fun _ => none) "Todo" =
      (Except.ok (), 0) ∧
    (UpdateIssueStatus true true (Except.ok ())
        (Except.ok [⟨"item1", "proj1"⟩])
        (fun _ => Except.ok ⟨"field1", "Status", [⟨"opt1", "Todo"⟩]⟩)
        (fun _ => none) "todo").1 = Except.ok () := by
  constructor
  · exact (updateIssueStatus_spec false (Except.ok ())
      (fun _ => Except.error "no field") (fun _ => none) "Todo" []
      (Or.inl rfl)).1 rfl
  · exact (updateIssueStatus_spec true (Except.ok ())
      (fun _ => Except.ok ⟨"field1", "Status", [⟨"opt1", "Todo"⟩]⟩)
      (fun _ => none) "todo" [⟨"item1", "proj1"⟩] (Or.inr rfl)).2.2.1
      ⟨⟨"item1", "proj1"⟩, by decide, by decide⟩

/-! ### Issue number from branch name (internal/github, `ParseIssueFromBranch`)

The regex `(?:^|/)(\d+)[-_]` is compiled by hand: at the start of the string
or right after any `/`, a maximal digit run followed by `-` or `_` yields
the issue number (greedy digits need no backtracking here: shortening the
digit run leaves a digit where `[-_]` is required). Go's `Atoi` overflow
rejection is not modelled (digit runs beyond the 64-bit range return
`(0, false)` in Go and a huge number here; no caller distinguishes them in
the properties proved). -/

/-- One attempt of `(\d+)[-_]` at the current position. -/
def digitsThenSep (s : List Char) : Option Nat :=
  let d := s.takeWhile (fun c => c.isDigit)
  match s.dropWhile (fun c => c.isDigit) with
  | c :: _ =>
    if d ≠ [] ∧ (c = '-' ∨ c = '_') then
      some (d.foldl (fun a x => a * 10 + (x.toNat - 48)) 0)
    else none
  | [] => none

/-- Scan for a match of `/(\d+)[-_]` left to right. -/
def scanIssueNum : List Char → Option Nat
  | [] => none
  | '/' :: rest =>
    match digitsThenSep rest with
    | some n => some n
    | none => scanIssueNum rest
  | _ :: rest => scanIssueNum rest

/-- Model of `github.ParseIssueFromBranch` (`some` = `(n, true)`). -/
def ParseIssueFromBranch (branchName : List Char) : Option Nat :=
  match digitsThenSep branchName with
  | some n => some n
  | none => scanIssueNum branchName

/-! ### Worktree removal decision logic (cmd, `runRm`)

The segment of `runRm` after the worktree has been located and removed
successfully: merged-PR detection, the board revert and the branch-deletion
steps.
```
prMerged := false; autoDeleteBranch := false
if !deleteBranch {
  if prNumber, err := github.GetPRForBranch(worktreeName); err == nil {
    if merged, err := github.IsPRMerged(prNumber); err == nil && merged {
      prMerged = true; autoDeleteBranch = true
    } } }
...
if autoDeleteBranch { deleteBranch = true }
...
if cfg.GitHub.ProjectsEnabled && !prMerged {
  if issueNum, ok := github.ParseIssueFromBranch(branchName); ok {
    github.UpdateIssueStatus(issueNum, cfg.GitHub.TodoValue, cfg) ... } }
if deleteBranch {
  if git.BranchExists(branchName) { git.DeleteBranch(branchName) }
  if git.RemoteBranchExists(branchName) { git.DeleteRemoteBranch(branchName) } }
```
`prLookup` models `GetPRForBranch`, `isMerged` models `IsPRMerged`. -/

structure RmEffects where
  deleteBranch : Bool
  revertedToTodo : Bool
  localDeleteAttempted : Bool
  remoteDeleteAttempted : Bool
deriving DecidableEq, Repr

/-- Model of the decision logic of `runRm` (post-removal effects). -/
def runRmDecision (deleteBranchFlag : Bool) (prLookup : Except String Nat)
    (isMerged : Nat → Except String Bool) (projectsEnabled : Bool)
    (branchName : List Char) (branchExists remoteBranchExists : Bool) :
    RmEffects :=
  let pm : Bool × Bool :=
    if deleteBranchFlag then (false, false)
    else
      match prLookup with
      | Except.error _ => (false, false)
      | Except.ok prNumber =>
        match isMerged prNumber with
        | Except.error _ => (false, false)
        | Except.ok merged => if merged then (true, true) else (false, false)
  let prMerged := pm.1
  let autoDeleteBranch := pm.2
  let deleteBranch := deleteBranchFlag || autoDeleteBranch
  let reverted := projectsEnabled && !prMerged &&
    (ParseIssueFromBranch branchName).isSome
  ⟨deleteBranch, reverted, deleteBranch && branchExists,
    deleteBranch && remoteBranchExists⟩

/-- Claim C1, failing input: `rm` invoked with the explicit delete-branch
flag on a branch whose PR is merged (projects enabled, branch `42-fix-bug`).
Because the flag is set, `runRm` skips the merged-PR check entirely
(`prMerged` stays false), so the board is reverted to Todo — but the claim
(and the code's own comment `if merged, it should stay Done`) require the
revert to be skipped whenever the PR is merged. -/
theorem runRm_merged_with_flag_reverts_board :
    runRmDecision false (Except.ok 7) (fun _ => Except.ok true) true
      "42-fix-bug".data true true =
      { deleteBranch := true, revertedToTodo := false,
        localDeleteAttempted := true, remoteDeleteAttempted := true } ∧
    runRmDecision true (Except.ok 7) (fun _ => Except.ok true) true
      "42-fix-bug".data true true =
      { deleteBranch := true, revertedToTodo := true,
        localDeleteAttempted := true, remoteDeleteAttempted := true } := by
  constructor
  · decide
  · decide

/-! ### Selection service (internal/tui, `Select` / `selectWithNumbered`)

`hasFzf` is the `exec.LookPath("fzf")` probe, the fzf subprocess is the
oracle `fzfBackend`, and the line read from standard input is the
`Except String String` argument (`error` = read failure). `buildIndices`
is the display loop of `selectWithNumbered`: it returns the
`enabledIndices` map (display number, option index) and the final
`displayNum`, assigning numbers only to enabled options. -/

structure SelOption where
  label : String
  value : String
  hint : String
  disabled : Bool
  inProgress : Bool
deriving DecidableEq, Repr

instance : Inhabited SelOption := ⟨⟨"", "", "", false, false⟩⟩

/-- The numbering loop of `selectWithNumbered`: association list
`displayNum -> option index` plus the final `displayNum`. -/
def buildIndices : List SelOption → Nat → Nat → List (Nat × Nat) × Nat
  | [], _, d => ([], d)
  | o :: rest, i, d =>
    if o.disabled then buildIndices rest (i + 1) d
    else
      let r := buildIndices rest (i + 1) (d + 1)
      ((d, i) :: r.1, r.2)

/-- Model of `tui.selectWithNumbered`. A missing map key yields the Go zero
value 0, and the (unreachable, because the choice was range-checked)
out-of-bounds option access yields the zero-value option. -/
def selectWithNumbered (options : List SelOption)
    (inputLine : Except String String) : Except String String :=
  let built := buildIndices options 0 1
  let idx := built.1
  let displayNum := built.2
  if idx.length = 0 then Except.error "no selectable options available"
  else
    match inputLine with
    | Except.error e => Except.error e
    | Except.ok input =>
      match goAtoi (goTrimSpace input) with
      | none => Except.error "invalid selection"
      | some choice =>
        if choice < 1 ∨ (displayNum : Int) ≤ choice then
          Except.error "invalid selection"
        else
          let optIndex := (List.lookup choice.toNat idx).getD 0
          Except.ok ((options.getD optIndex default).value)

inductive SelBackend
  | fzfFinder
  | numberedList
  | noneInvoked
deriving DecidableEq, Repr

/-- Model of `tui.Select`: empty option list fails up front, otherwise
dispatch to fzf when available, else to the numbered fallback. -/
def Select (hasFzf : Bool) (fzfBackend : List SelOption → Except String String)
    (options : List SelOption) (inputLine : Except String String) :
    Except String String :=
  if options.length = 0 then Except.error "no options to select from"
  else if hasFzf then fzfBackend options
  else selectWithNumbered options inputLine

/-- Which backend a `Select` call invokes. -/
def SelectRoute (hasFzf : Bool) (options : List SelOption) : SelBackend :=
  if options.length = 0 then SelBackend.noneInvoked
  else if hasFzf then SelBackend.fzfFinder
  else SelBackend.numberedList

lemma buildIndices_len : ∀ (l : List SelOption) (i d : Nat),
    (buildIndices l i d).1.length = (l.filter (fun o => !o.disabled)).length := by
  intro l
  induction l with
  | nil => intro i d; rfl
  | cons o rest ih =>
    intro i d
    by_cases ho : o.disabled
    · simp [buildIndices, ho, List.filter_cons, ih]
    · simp [buildIndices, ho, List.filter_cons, ih]

lemma buildIndices_displayNum : ∀ (l : List SelOption) (i d : Nat),
    (buildIndices l i d).2 = d + (l.filter (fun o => !o.disabled)).length := by
  intro l
  induction l with
  | nil => intro i d; simp [buildIndices]
  | cons o rest ih =>
    intro i d
    by_cases ho : o.disabled
    · simp [buildIndices, ho, List.filter_cons, ih]
    · simp only [buildIndices, ho, Bool.false_eq_true, if_false, ih,
        List.filter_cons]
      simp [ho]
      omega

lemma buildIndices_lookup : ∀ (l : List SelOption) (i d k : Nat),
    k < (l.filter (fun o => !o.disabled)).length →
    ∃ j, List.lookup (d + k) (buildIndices l i d).1 = some (i + j) ∧
      l.getD j default = (l.filter (fun o => !o.disabled)).getD k default := by
  intro l
  induction l with
  | nil => intro i d k hk; simp at hk
  | cons o rest ih =>
    intro i d k hk
    by_cases ho : o.disabled
    · rw [List.filter_cons_of_neg (by simp [ho])] at hk ⊢
      have hb : buildIndices (o :: rest) i d = buildIndices rest (i + 1) d := by
        simp [buildIndices, ho]
      rw [hb]
      obtain ⟨j, hl, hv⟩ := ih (i + 1) d k hk
      exact ⟨j + 1, by rw [hl]; congr 1; omega, by simpa using hv⟩
    · rw [List.filter_cons_of_pos (by simp [ho])] at hk ⊢
      have hb : (buildIndices (o :: rest) i d).1 =
          (d, i) :: (buildIndices rest (i + 1) (d + 1)).1 := by
        simp [buildIndices, ho]
      rw [hb]
      cases k with
      | zero =>
        refine ⟨0, ?_, by simp⟩
        simp [List.lookup]
      | succ k' =>
        have hk' : k' < (rest.filter (fun o => !o.disabled)).length := by
          simpa using hk
        obtain ⟨j, hl, hv⟩ := ih (i + 1) (d + 1) k' hk'
        refine ⟨j + 1, ?_, by simpa using hv⟩
        have hne : ((d + (k' + 1) : Nat) == d) = false := by
          simp only [beq_eq_false_iff_ne, ne_eq]
          omega
        simp only [List.lookup, hne]
        have hkey : d + (k' + 1) = d + 1 + k' := by omega
        rw [hkey, hl]
        congr 1
        omega

/-- Claim C8: an empty option list fails before either backend is invoked;
in the numbered fallback the display numbers 1..#enabled are assigned
consecutively to the enabled options only (entering number k selects the
k-th enabled option, and any accepted selection is the value of an enabled
option, so disabled options cannot be chosen); and every non-numeric or
out-of-range input line is rejected with the uniform `invalid selection`
error. -/
theorem select_spec (hasFzf : Bool)
    (fzfBackend : List SelOption → Except String String)
    (options : List SelOption) (inputLine : Except String String) :
    (options = [] →
      Select hasFzf fzfBackend options inputLine =
        Except.error "no options to select from" ∧
      SelectRoute hasFzf options = SelBackend.noneInvoked) ∧
    (∀ (s : String) (k : Nat),
      goAtoi (goTrimSpace s) = some (k : Int) → 1 ≤ k →
      k ≤ (options.filter (fun o => !o.disabled)).length →
      selectWithNumbered options (Except.ok s) =
        Except.ok (((options.filter (fun o => !o.disabled)).getD (k - 1)
          default).value)) ∧
    (∀ (s v : String),
      selectWithNumbered options (Except.ok s) = Except.ok v →
      ∃ o ∈ options.filter (fun o => !o.disabled), o.value = v) ∧
    (∀ (s : String),
      options.filter (fun o => !o.disabled) ≠ [] →
      goAtoi (goTrimSpace s) = none →
      selectWithNumbered options (Except.ok s) =
        Except.error "invalid selection") ∧
    (∀ (s : String) (z : Int),
      options.filter (fun o => !o.disabled) ≠ [] →
      goAtoi (goTrimSpace s) = some z →
      (z < 1 ∨ ((options.filter (fun o => !o.disabled)).length : Int) < z) →
      selectWithNumbered options (Except.ok s) =
        Except.error "invalid selection") := by
  refine ⟨?_, ?_, ?_, ?_, ?_⟩
  · intro h
    subst h
    exact ⟨rfl, rfl⟩
  · intro s k hA hk1 hk2
    have hn0 : ¬ (buildIndices options 0 1).1.length = 0 := by
      rw [buildIndices_len]
      omega
    have hr : ¬ ((k : Int) < 1 ∨
        ((buildIndices options 0 1).2 : Int) ≤ (k : Int)) := by
      rw [buildIndices_displayNum]
      push_neg
      constructor
      · exact_mod_cast hk1
      · push_cast
        omega
    obtain ⟨j, hl, hv⟩ := buildIndices_lookup options 0 1 (k - 1) (by omega)
    have hkey : 1 + (k - 1) = k := by omega
    rw [hkey] at hl
    simp only [selectWithNumbered, hA, if_neg hn0, if_neg hr,
      Int.toNat_natCast, hl, Option.getD_some, Nat.zero_add]
    rw [hv]
  · intro s v hok
    by_cases hn0 : (buildIndices options 0 1).1.length = 0
    · simp only [selectWithNumbered, if_pos hn0] at hok
      cases hok
    · cases hA : goAtoi (goTrimSpace s) with
      | none =>
        simp only [selectWithNumbered, hA, if_neg hn0] at hok
        cases hok
      | some choice =>
        by_cases hr : choice < 1 ∨
            ((buildIndices options 0 1).2 : Int) ≤ choice
        · simp only [selectWithNumbered, hA, if_neg hn0, if_pos hr] at hok
          cases hok
        · push_neg at hr
          obtain ⟨hr1, hr2⟩ := hr
          have hr' : ¬ (choice < 1 ∨
              ((buildIndices options 0 1).2 : Int) ≤ choice) := by
            push_neg
            exact ⟨hr1, hr2⟩
          rw [buildIndices_displayNum] at hr2
          have hk1 : 1 ≤ choice.toNat := by omega
          have hk2 : choice.toNat ≤
              (options.filter (fun o => !o.disabled)).length := by
            push_cast at hr2
            omega
          obtain ⟨j, hl, hv⟩ := buildIndices_lookup options 0 1
            (choice.toNat - 1) (by omega)
          have hkey : 1 + (choice.toNat - 1) = choice.toNat := by omega
          rw [hkey] at hl
          simp only [selectWithNumbered, hA, if_neg hn0, if_neg hr', hl,
            Option.getD_some, Nat.zero_add] at hok
          have hvv : (options.getD j default).value = v := by
            cases hok
            rfl
          have hidx : choice.toNat - 1 <
              (options.filter (fun o => !o.disabled)).length := by omega
          refine ⟨(options.filter (fun o => !o.disabled)).getD
            (choice.toNat - 1) default, ?_, ?_⟩
          · rw [List.getD_eq_getElem _ _ hidx]
            exact List.getElem_mem hidx
          · rw [← hvv, hv]
  · intro s hne hA
    have hn0 : ¬ (buildIndices options 0 1).1.length = 0 := by
      rw [buildIndices_len]
      intro h
      exact hne (List.length_eq_zero.mp h)
    simp only [selectWithNumbered, hA, if_neg hn0]
  · intro s z hne hA hout
    have hn0 : ¬ (buildIndices options 0 1).1.length = 0 := by
      rw [buildIndices_len]
      intro h
      exact hne (List.length_eq_zero.mp h)
    have hr : z < 1 ∨ ((buildIndices options 0 1).2 : Int) ≤ z := by
      rw [buildIndices_displayNum]
      rcases hout with h | h
      · exact Or.inl h
      · right
        push_cast
        omega
    simp only [selectWithNumbered, hA, if_neg hn0, if_pos hr]

/-- Witness for claim C8: empty list, then a two-option list whose first
option is disabled: input `1` selects the enabled option's value, input
`zzz` and input `2` are rejected as invalid. -/
theorem select_spec_witness :
    Select false (fun _ => Except.error "unused") [] (Except.ok "1") =
      Except.error "no options to select from" ∧
    selectWithNumbered
      [⟨"busy", "a", "already exists", true, false⟩,
       ⟨"free", "b", "", false, false⟩] (Except.ok "1") = Except.ok "b" ∧
    selectWithNumbered
      [⟨"busy", "a", "already exists", true, false⟩,
       ⟨"free", "b", "", false, false⟩] (Except.ok "zzz") =
      Except.error "invalid selection" ∧
    selectWithNumbered
      [⟨"busy", "a", "already exists", true, false⟩,
       ⟨"free", "b", "", false, false⟩] (Except.ok "2") =
      Except.error "invalid selection" := by
  refine ⟨?_, ?_, ?_, ?_⟩
  · exact ((select_spec false (fun _ => Except.error "unused") []
      (Except.ok "1")).1 rfl).1
  · exact (select_spec false (fun _ => Except.error "unused")
      [⟨"busy", "a", "already exists", true, false⟩,
       ⟨"free", "b", "", false, false⟩] (Except.ok "1")).2.1 "1" 1
      (by decide) (by decide) (by decide)
  · exact (select_spec false (fun _ => Except.error "unused")
      [⟨"busy", "a", "already exists", true, false⟩,
       ⟨"free", "b", "", false, false⟩] (Except.ok "zzz")).2.2.2.1 "zzz"
      (by decide) (by decide)
  · exact (select_spec false (fun _ => Except.error "unused")
      [⟨"busy", "a", "already exists", true, false⟩,
       ⟨"free", "b", "", false, false⟩] (Except.ok "2")).2.2.2.2 "2" 2
      (by decide) (by decide) (by decide)

/-! ### Remote URL parsing (internal/git, `ParseRemoteURL`)

The three regexes of `ParseRemoteURL` are compiled by hand into
deterministic scanners. Go's `FindStringSubmatch` tries start positions
left to right (`scanFor`); at one position each pattern decomposes as a
literal, a separator class, a greedy `[^/]+` group, a literal `/` and the
tail `([^/.]+)(\.git)?$`. The greedy groups need no backtracking: shrinking
`[^/]+` leaves a non-`/` character where `/` is required, and shrinking
`[^/.]+` leaves a character that can start neither `\.git` nor the end of
the string — for the same reason the lazy tail group of the third regex
accepts exactly the same strings, so one `repoTail` serves all three. -/

/-- The literal `github.com` of the first regex. -/
def ghPat : List Char :=
  'g' :: 'i' :: 't' :: 'h' :: 'u' :: 'b' :: '.' :: 'c' :: 'o' :: 'm' :: []

/-- The literal `/git/` of the second regex. -/
def gitPat : List Char := '/' :: 'g' :: 'i' :: 't' :: '/' :: []

/-- The optional suffix `.git`. -/
def dotGit : List Char := '.' :: 'g' :: 'i' :: 't' :: []

/-- Match a literal pattern at the head of the input, returning the rest. -/
def dropLit : List Char → List Char → Option (List Char)
  | [], s => some s
  | _ :: _, [] => none
  | p :: ps, c :: cs => if c = p then dropLit ps cs else none

/-- The tail `([^/.]+)(\.git)?$`: greedy repo-name group, optional `.git`,
end of string. -/
def repoTail (u : List Char) : Option (List Char) :=
  let p := u.takeWhile (fun c => !(c == '/' || c == '.'))
  let r := u.dropWhile (fun c => !(c == '/' || c == '.'))
  if p.isEmpty then none
  else if r.isEmpty then some p
  else if r = dotGit then some p
  else none

/-- The fragment `([^/]+)/` followed by `repoTail`, shared by all three
regexes. -/
def orgSlash (t : List Char) : Option (List Char × List Char) :=
  let a := t.takeWhile (fun c => !(c == '/'))
  let rest := t.dropWhile (fun c => !(c == '/'))
  if a.isEmpty then none
  else
    match rest with
    | '/' :: u => (repoTail u).map (fun b => (a, b))
    | _ => none

/-- One attempt of regex 1, `github\.com[:/]([^/]+)/([^/.]+)(\.git)?$`, at
the current position. -/
def tryGithubAt (s : List Char) : Option (List Char × List Char) :=
  match dropLit ghPat s with
  | none => none
  | some t =>
    match t with
    | sep :: t2 => if sep = ':' ∨ sep = '/' then orgSlash t2 else none
    | [] => none

/-- One attempt of regex 2, `/git/([^/]+)/([^/.]+)(?:\.git)?$`. -/
def tryGitAt (s : List Char) : Option (List Char × List Char) :=
  match dropLit gitPat s with
  | none => none
  | some t => orgSlash t

/-- One attempt of regex 3, `[/:]([^/]+)/([^/.]+?)(?:\.git)?$`. -/
def trySepAt (s : List Char) : Option (List Char × List Char) :=
  match s with
  | c :: t => if c = '/' ∨ c = ':' then orgSlash t else none
  | [] => none

/-- Leftmost-match scan over start positions. -/
def scanFor (tryAt : List Char → Option (List Char × List Char)) :
    List Char → Option (List Char × List Char)
  | [] => none
  | c :: rest =>
    match tryAt (c :: rest) with
    | some r => some r
    | none => scanFor tryAt rest

/-- Model of `git.ParseRemoteURL` (`some (org, repo)` on success). -/
def ParseRemoteURL (url : List Char) : Option (List Char × List Char) :=
  match scanFor tryGithubAt url with
  | some r => some r
  | none =>
    match scanFor tryGitAt url with
    | some r => some r
    | none => scanFor trySepAt url

/-- An SSH scp-like remote `git@github.com:org/repo`. -/
def sshUrl (org repo : List Char) : List Char :=
  'g' :: 'i' :: 't' :: '@' :: (ghPat ++ ':' :: (org ++ '/' :: repo))

/-- An HTTPS remote `https://github.com/org/repo`. -/
def httpsUrl (org repo : List Char) : List Char :=
  'h' :: 't' :: 't' :: 'p' :: 's' :: ':' :: '/' :: '/' ::
    (ghPat ++ '/' :: (org ++ '/' :: repo))

/-- A proxy-style remote `http://<host>/git/org/repo`. -/
def proxyUrl (host org repo : List Char) : List Char :=
  'h' :: 't' :: 't' :: 'p' :: ':' :: '/' :: '/' ::
    (host ++ gitPat ++ org ++ '/' :: repo)

lemma dropLit_append : ∀ (p s : List Char), dropLit p (p ++ s) = some s := by
  intro p
  induction p with
  | nil => intro s; rfl
  | cons c ps ih => intro s; simp [dropLit, ih]

lemma dropLit_some : ∀ (p s t : List Char), dropLit p s = some t → s = p ++ t := by
  intro p
  induction p with
  | nil =>
    intro s t h
    simp only [dropLit, Option.some.injEq] at h
    rw [h]
    rfl
  | cons c ps ih =>
    intro s t h
    cases s with
    | nil => simp [dropLit] at h
    | cons d ds =>
      by_cases hdc : d = c
      · subst hdc
        simp only [dropLit, if_pos rfl] at h
        rw [List.cons_append, ih ds t h]
      · simp [dropLit, hdc] at h

lemma isPrefixOf_self_append : ∀ (p s : List Char),
    p.isPrefixOf (p ++ s) = true := by
  intro p
  induction p with
  | nil =>
    intro s
    rw [List.nil_append]
    cases s with
    | nil => rfl
    | cons a as => rfl
  | cons c ps ih => intro s; simp [List.isPrefixOf, ih]

lemma isPrefixOf_append_right {p s : List Char} (x : List Char)
    (h : p.isPrefixOf s = true) : p.isPrefixOf (s ++ x) = true := by
  induction p generalizing s with
  | nil =>
    cases hsx : s ++ x with
    | nil => rfl
    | cons a as => rfl
  | cons c ps ih =>
    cases s with
    | nil => simp [List.isPrefixOf] at h
    | cons d ds =>
      simp only [List.isPrefixOf, Bool.and_eq_true] at h
      simp only [List.cons_append, List.isPrefixOf, Bool.and_eq_true]
      exact ⟨h.1, ih h.2⟩

lemma takeWhile_append_stop {p : Char → Bool} :
    ∀ (l₁ : List Char) (c : Char) (l₂ : List Char),
      (∀ a ∈ l₁, p a = true) → p c = false →
      (l₁ ++ c :: l₂).takeWhile p = l₁ ∧
        (l₁ ++ c :: l₂).dropWhile p = c :: l₂ := by
  intro l₁
  induction l₁ with
  | nil =>
    intro c l₂ _ hc
    constructor
    · simp [List.takeWhile_cons, hc]
    · simp [List.dropWhile_cons, hc]
  | cons a as ih =>
    intro c l₂ hmem hc
    have ha := hmem a (List.mem_cons_self a as)
    obtain ⟨ht, hd⟩ := ih c l₂ (fun x hx => hmem x (List.mem_cons_of_mem a hx)) hc
    constructor
    · simp [List.takeWhile_cons, ha, ht]
    · simp [List.dropWhile_cons, ha, hd]

lemma takeWhile_all_true {p : Char → Bool} :
    ∀ (l : List Char), (∀ a ∈ l, p a = true) →
      l.takeWhile p = l ∧ l.dropWhile p = [] := by
  intro l
  induction l with
  | nil => intro _; exact ⟨rfl, rfl⟩
  | cons a as ih =>
    intro hmem
    have ha := hmem a (List.mem_cons_self a as)
    obtain ⟨ht, hd⟩ := ih (fun x hx => hmem x (List.mem_cons_of_mem a hx))
    constructor
    · simp [List.takeWhile_cons, ha, ht]
    · simp [List.dropWhile_cons, ha, hd]

lemma repoTail_mem_pred {repo : List Char} (h2 : '/' ∉ repo) (h3 : '.' ∉ repo) :
    ∀ a ∈ repo, (!(a == '/' || a == '.')) = true := by
  intro a ha
  have hs : a ≠ '/' := fun h => h2 (h ▸ ha)
  have hd : a ≠ '.' := fun h => h3 (h ▸ ha)
  simp [hs, hd]

lemma isEmpty_false_of_ne_nil {l : List Char} (h : l ≠ []) :
    l.isEmpty = false := by
  cases l with
  | nil => exact absurd rfl h
  | cons a as => rfl

lemma repoTail_plain {repo : List Char} (h1 : repo ≠ []) (h2 : '/' ∉ repo)
    (h3 : '.' ∉ repo) : repoTail repo = some repo := by
  obtain ⟨ht, hd⟩ := takeWhile_all_true repo (repoTail_mem_pred h2 h3)
  have hne := isEmpty_false_of_ne_nil h1
  simp only [repoTail]
  rw [ht, hd, hne]
  simp

lemma repoTail_dotgit {repo : List Char} (h1 : repo ≠ []) (h2 : '/' ∉ repo)
    (h3 : '.' ∉ repo) : repoTail (repo ++ dotGit) = some repo := by
  obtain ⟨ht, hd⟩ := takeWhile_append_stop (p := fun c => !(c == '/' || c == '.'))
    repo '.' ('g' :: 'i' :: 't' :: []) (repoTail_mem_pred h2 h3) (by decide)
  have hne := isEmpty_false_of_ne_nil h1
  simp only [repoTail, dotGit]
  rw [ht, hd, hne]
  simp

lemma orgSlash_eval {org : List Char} (u : List Char) (h1 : org ≠ [])
    (h2 : '/' ∉ org) :
    orgSlash (org ++ '/' :: u) = (repoTail u).map (fun b => (org, b)) := by
  obtain ⟨ht, hd⟩ := takeWhile_append_stop (p := fun c => !(c == '/')) org '/' u
    (fun a ha => by
      have hne : a ≠ '/' := fun h => h2 (h ▸ ha)
      simp [hne]) (by decide)
  have hne := isEmpty_false_of_ne_nil h1
  simp only [orgSlash]
  rw [ht, hd, hne]
  rfl

lemma tryGithubAt_hit {sep : Char} (hsep : sep = ':' ∨ sep = '/')
    (rest : List Char) :
    tryGithubAt (ghPat ++ sep :: rest) = orgSlash rest := by
  simp [tryGithubAt, dropLit_append, hsep]

lemma tryGitAt_hit (rest : List Char) :
    tryGitAt (gitPat ++ rest) = orgSlash rest := by
  simp [tryGitAt, dropLit_append]

lemma scanFor_cons_none {tryAt : List Char → Option (List Char × List Char)}
    {c : Char} {rest : List Char} (h : tryAt (c :: rest) = none) :
    scanFor tryAt (c :: rest) = scanFor tryAt rest := by
  simp [scanFor, h]

lemma scanFor_cons_some {tryAt : List Char → Option (List Char × List Char)}
    {c : Char} {rest : List Char} {r : List Char × List Char}
    (h : tryAt (c :: rest) = some r) :
    scanFor tryAt (c :: rest) = some r := by
  simp [scanFor, h]

lemma tryGithubAt_none_of_not_pre {s : List Char}
    (h : ¬ ghPat.isPrefixOf s = true) : tryGithubAt s = none := by
  cases hdl : dropLit ghPat s with
  | none => simp [tryGithubAt, hdl]
  | some t =>
    exact absurd (by rw [dropLit_some _ _ _ hdl]
                     exact isPrefixOf_self_append _ _) h

lemma tryGitAt_none_of_not_pre {s : List Char}
    (h : ¬ gitPat.isPrefixOf s = true) : tryGitAt s = none := by
  cases hdl : dropLit gitPat s with
  | none => simp [tryGitAt, hdl]
  | some t =>
    exact absurd (by rw [dropLit_some _ _ _ hdl]
                     exact isPrefixOf_self_append _ _) h

lemma scanFor_none_of_all (tryAt : List Char → Option (List Char × List Char)) :
    ∀ (L : List Char), (∀ i < L.length, tryAt (L.drop i) = none) →
      scanFor tryAt L = none := by
  intro L
  induction L with
  | nil => intro _; rfl
  | cons c rest ih =>
    intro h
    rw [scanFor_cons_none (h 0 (by simp))]
    exact ih (fun i hi => h (i + 1) (by simp only [List.length_cons]; omega))

lemma scanFor_drop (tryAt : List Char → Option (List Char × List Char)) :
    ∀ (n : Nat) (L : List Char), (∀ i < n, tryAt (L.drop i) = none) →
      scanFor tryAt L = scanFor tryAt (L.drop n) := by
  intro n
  induction n with
  | zero => intro L _; rfl
  | succ m ih =>
    intro L h
    rw [ih L (fun i hi => h i (by omega))]
    have hsd : L.drop (m + 1) = (L.drop m).drop 1 := by
      rw [List.drop_drop]
    cases hdm : L.drop m with
    | nil =>
      rw [hsd, hdm]
      rfl
    | cons c rest =>
      have h1 : L.drop (m + 1) = rest := by rw [hsd, hdm]; rfl
      rw [h1]
      exact scanFor_cons_none (hdm ▸ h m (by omega))

lemma scanFor_found (tryAt : List Char → Option (List Char × List Char))
    (L : List Char) (n : Nat) (r : List Char × List Char)
    (h : ∀ i < n, tryAt (L.drop i) = none)
    (hs : tryAt (L.drop n) = some r) (hne : L.drop n ≠ []) :
    scanFor tryAt L = some r := by
  rw [scanFor_drop tryAt n L h]
  cases hdn : L.drop n with
  | nil => exact absurd hdn hne
  | cons c rest =>
    rw [hdn] at hs
    exact scanFor_cons_some hs

lemma scan_ssh (org repo g : List Char) (h1 : org ≠ []) (h2 : '/' ∉ org)
    (hrt : repoTail (repo ++ g) = some repo) :
    scanFor tryGithubAt (sshUrl org repo ++ g) = some (org, repo) := by
  have hurl : sshUrl org repo ++ g =
      'g' :: 'i' :: 't' :: '@' ::
        (ghPat ++ ':' :: (org ++ '/' :: (repo ++ g))) := by
    simp [sshUrl, List.append_assoc]
  rw [hurl]
  set T := ghPat ++ ':' :: (org ++ '/' :: (repo ++ g)) with hT
  have s1 : scanFor tryGithubAt ('g' :: 'i' :: 't' :: '@' :: T) =
      scanFor tryGithubAt ('i' :: 't' :: '@' :: T) := scanFor_cons_none rfl
  have s2 : scanFor tryGithubAt ('i' :: 't' :: '@' :: T) =
      scanFor tryGithubAt ('t' :: '@' :: T) := scanFor_cons_none rfl
  have s3 : scanFor tryGithubAt ('t' :: '@' :: T) =
      scanFor tryGithubAt ('@' :: T) := scanFor_cons_none rfl
  have s4 : scanFor tryGithubAt ('@' :: T) =
      scanFor tryGithubAt T := scanFor_cons_none rfl
  rw [s1, s2, s3, s4, hT]
  have hhit : tryGithubAt (ghPat ++ ':' :: (org ++ '/' :: (repo ++ g))) =
      some (org, repo) := by
    rw [tryGithubAt_hit (Or.inl rfl), orgSlash_eval _ h1 h2, hrt]
    rfl
  have hgh : ghPat ++ ':' :: (org ++ '/' :: (repo ++ g)) =
      'g' :: 'i' :: 't' :: 'h' :: 'u' :: 'b' :: '.' :: 'c' :: 'o' :: 'm' ::
        ':' :: (org ++ '/' :: (repo ++ g)) := rfl
  rw [hgh] at hhit ⊢
  exact scanFor_cons_some hhit

lemma scan_https (org repo g : List Char) (h1 : org ≠ []) (h2 : '/' ∉ org)
    (hrt : repoTail (repo ++ g) = some repo) :
    scanFor tryGithubAt (httpsUrl org repo ++ g) = some (org, repo) := by
  have hurl : httpsUrl org repo ++ g =
      'h' :: 't' :: 't' :: 'p' :: 's' :: ':' :: '/' :: '/' ::
        (ghPat ++ '/' :: (org ++ '/' :: (repo ++ g))) := by
    simp [httpsUrl, List.append_assoc]
  rw [hurl]
  set T := ghPat ++ '/' :: (org ++ '/' :: (repo ++ g)) with hT
  have s1 : scanFor tryGithubAt
      ('h' :: 't' :: 't' :: 'p' :: 's' :: ':' :: '/' :: '/' :: T) =
      scanFor tryGithubAt ('t' :: 't' :: 'p' :: 's' :: ':' :: '/' :: '/' :: T) :=
    scanFor_cons_none rfl
  have s2 : scanFor tryGithubAt ('t' :: 't' :: 'p' :: 's' :: ':' :: '/' :: '/' :: T) =
      scanFor tryGithubAt ('t' :: 'p' :: 's' :: ':' :: '/' :: '/' :: T) :=
    scanFor_cons_none rfl
  have s3 : scanFor tryGithubAt ('t' :: 'p' :: 's' :: ':' :: '/' :: '/' :: T) =
      scanFor tryGithubAt ('p' :: 's' :: ':' :: '/' :: '/' :: T) :=
    scanFor_cons_none rfl
  have s4 : scanFor tryGithubAt ('p' :: 's' :: ':' :: '/' :: '/' :: T) =
      scanFor tryGithubAt ('s' :: ':' :: '/' :: '/' :: T) := scanFor_cons_none rfl
  have s5 : scanFor tryGithubAt ('s' :: ':' :: '/' :: '/' :: T) =
      scanFor tryGithubAt (':' :: '/' :: '/' :: T) := scanFor_cons_none rfl
  have s6 : scanFor tryGithubAt (':' :: '/' :: '/' :: T) =
      scanFor tryGithubAt ('/' :: '/' :: T) := scanFor_cons_none rfl
  have s7 : scanFor tryGithubAt ('/' :: '/' :: T) =
      scanFor tryGithubAt ('/' :: T) := scanFor_cons_none rfl
  have s8 : scanFor tryGithubAt ('/' :: T) =
      scanFor tryGithubAt T := scanFor_cons_none rfl
  rw [s1, s2, s3, s4, s5, s6, s7, s8, hT]
  have hhit : tryGithubAt (ghPat ++ '/' :: (org ++ '/' :: (repo ++ g))) =
      some (org, repo) := by
    rw [tryGithubAt_hit (Or.inr rfl), orgSlash_eval _ h1 h2, hrt]
    rfl
  have hgh : ghPat ++ '/' :: (org ++ '/' :: (repo ++ g)) =
      'g' :: 'i' :: 't' :: 'h' :: 'u' :: 'b' :: '.' :: 'c' :: 'o' :: 'm' ::
        '/' :: (org ++ '/' :: (repo ++ g)) := rfl
  rw [hgh] at hhit ⊢
  exact scanFor_cons_some hhit

lemma scan_proxy_git (host org repo g : List Char) (h1 : org ≠ [])
    (h2 : '/' ∉ org) (hrt : repoTail (repo ++ g) = some repo)
    (hpre : ∀ i < 7 + host.length,
      ¬ gitPat.isPrefixOf ((proxyUrl host org repo ++ g).drop i) = true) :
    scanFor tryGitAt (proxyUrl host org repo ++ g) = some (org, repo) := by
  have hurl : proxyUrl host org repo ++ g =
      ('h' :: 't' :: 't' :: 'p' :: ':' :: '/' :: '/' :: host) ++
        (gitPat ++ (org ++ '/' :: (repo ++ g))) := by
    simp [proxyUrl, List.append_assoc]
  have hlen : ('h' :: 't' :: 't' :: 'p' :: ':' :: '/' :: '/' :: host).length =
      7 + host.length := by
    simp only [List.length_cons]
    omega
  apply scanFor_found tryGitAt (proxyUrl host org repo ++ g) (7 + host.length)
    (org, repo)
  · intro i hi
    exact tryGitAt_none_of_not_pre (hpre i hi)
  · rw [hurl, ← hlen, List.drop_left]
    rw [tryGitAt_hit, orgSlash_eval _ h1 h2, hrt]
    rfl
  · rw [hurl, ← hlen, List.drop_left]
    simp [gitPat]

/-- Claim C9: for the three supported remote formats — `git@github.com:org/repo`,
`https://github.com/org/repo`, and proxy URLs `http://<host>/git/org/repo`
(whose text contains `github.com` nowhere and whose first `/git/` is the
final one) — `ParseRemoteURL` extracts the same `(org, repo)` pair with a
trailing `.git` as without it. -/
theorem parseRemoteURL_dotgit_invariant (org repo host : List Char)
    (ho1 : org ≠ []) (ho2 : '/' ∉ org)
    (hr1 : repo ≠ []) (hr2 : '/' ∉ repo) (hr3 : '.' ∉ repo) :
    (ParseRemoteURL (sshUrl org repo ++ dotGit) =
        ParseRemoteURL (sshUrl org repo) ∧
      ParseRemoteURL (sshUrl org repo) = some (org, repo)) ∧
    (ParseRemoteURL (httpsUrl org repo ++ dotGit) =
        ParseRemoteURL (httpsUrl org repo) ∧
      ParseRemoteURL (httpsUrl org repo) = some (org, repo)) ∧
    ((∀ i < (proxyUrl host org repo ++ dotGit).length,
        ¬ ghPat.isPrefixOf ((proxyUrl host org repo ++ dotGit).drop i) = true) →
     (∀ i < 7 + host.length,
        ¬ gitPat.isPrefixOf ((proxyUrl host org repo ++ dotGit).drop i) = true) →
      ParseRemoteURL (proxyUrl host org repo ++ dotGit) =
        ParseRemoteURL (proxyUrl host org repo) ∧
      ParseRemoteURL (proxyUrl host org repo) = some (org, repo)) := by
  have hrtg : repoTail (repo ++ dotGit) = some repo :=
    repoTail_dotgit hr1 hr2 hr3
  have hrt0 : repoTail (repo ++ []) = some repo := by
    rw [List.append_nil]
    exact repoTail_plain hr1 hr2 hr3
  have hs1 : ParseRemoteURL (sshUrl org repo ++ dotGit) = some (org, repo) := by
    simp [ParseRemoteURL, scan_ssh org repo dotGit ho1 ho2 hrtg]
  have hs0 : ParseRemoteURL (sshUrl org repo) = some (org, repo) := by
    have h := scan_ssh org repo [] ho1 ho2 hrt0
    rw [List.append_nil] at h
    simp [ParseRemoteURL, h]
  have hh1 : ParseRemoteURL (httpsUrl org repo ++ dotGit) = some (org, repo) := by
    simp [ParseRemoteURL, scan_https org repo dotGit ho1 ho2 hrtg]
  have hh0 : ParseRemoteURL (httpsUrl org repo) = some (org, repo) := by
    have h := scan_https org repo [] ho1 ho2 hrt0
    rw [List.append_nil] at h
    simp [ParseRemoteURL, h]
  refine ⟨⟨hs1.trans hs0.symm, hs0⟩, ⟨hh1.trans hh0.symm, hh0⟩, ?_⟩
  intro hng hngit
  have hng' : ∀ i < (proxyUrl host org repo).length,
      ¬ ghPat.isPrefixOf ((proxyUrl host org repo).drop i) = true := by
    intro i hi hP
    refine hng i (by rw [List.length_append]; omega) ?_
    rw [List.drop_append_of_le_length (le_of_lt hi)]
    exact isPrefixOf_append_right dotGit hP
  have hlenp : 7 + host.length ≤ (proxyUrl host org repo).length := by
    simp [proxyUrl, gitPat, List.length_append, List.length_cons]
    omega
  have hngit' : ∀ i < 7 + host.length,
      ¬ gitPat.isPrefixOf ((proxyUrl host org repo).drop i) = true := by
    intro i hi hP
    refine hngit i hi ?_
    rw [List.drop_append_of_le_length (by omega)]
    exact isPrefixOf_append_right dotGit hP
  have hub1 : scanFor tryGithubAt (proxyUrl host org repo ++ dotGit) = none :=
    scanFor_none_of_all tryGithubAt _
      (fun i hi => tryGithubAt_none_of_not_pre (hng i hi))
  have hub0 : scanFor tryGithubAt (proxyUrl host org repo) = none :=
    scanFor_none_of_all tryGithubAt _
      (fun i hi => tryGithubAt_none_of_not_pre (hng' i hi))
  have hp1 : ParseRemoteURL (proxyUrl host org repo ++ dotGit) =
      some (org, repo) := by
    simp [ParseRemoteURL, hub1,
      scan_proxy_git host org repo dotGit ho1 ho2 hrtg hngit]
  have hp0 : ParseRemoteURL (proxyUrl host org repo) = some (org, repo) := by
    have h := scan_proxy_git host org repo [] ho1 ho2 hrt0 (by
      intro i hi
      rw [List.append_nil]
      exact hngit' i hi)
    rw [List.append_nil] at h
    simp [ParseRemoteURL, hub0, h]
  exact ⟨hp1.trans hp0.symm, hp0⟩

/-- Witness for claim C9 at concrete URLs in all three supported formats. -/
theorem parseRemoteURL_dotgit_invariant_witness :
    ParseRemoteURL (sshUrl "acme".data "proj".data ++ dotGit) =
      ParseRemoteURL (sshUrl "acme".data "proj".data) ∧
    ParseRemoteURL (httpsUrl "acme".data "proj".data) =
      some ("acme".data, "proj".data) ∧
    ParseRemoteURL (proxyUrl "proxy@host".data "acme".data "proj".data ++
        dotGit) =
      ParseRemoteURL (proxyUrl "proxy@host".data "acme".data "proj".data) := by
  have h := parseRemoteURL_dotgit_invariant "acme".data "proj".data
    "proxy@host".data (by decide) (by decide) (by decide) (by decide)
    (by decide)
  refine ⟨h.1.1, h.2.1.2, (h.2.2 ?_ ?_).1⟩
  · decide
  · decide

end GWI
